import Mathlib

/-!
Verification of the environment-variable / secret reconciliation engine of the
adk-deployment-engine repository (`utils/env_manager.py`).

Python strings are modelled as `List Char` (`Str`).  Python dicts (which keep
insertion order, update existing keys in place, and append new keys) are
modelled as association lists of type `List (Str × Str)` together with
`dictGet` / `dictInsert` / `dictUpdate`.  The file system (dotenv files) and
the process environment (`os.getenv`) are external inputs of the code; they
are modelled as explicit parameters: parsed key/value lists for files, and a
lookup function `Str → Option Str` for the process environment.
-/

set_option maxHeartbeats 1000000

/-- Python strings are modelled as lists of characters. -/
abbrev Str := List Char

/-- Association-list model of a Python dict lookup `m.get(k)`:
the value of the first entry whose key is `k`. -/
def dictGet (m : List (Str × Str)) (k : Str) : Option Str :=
  match m with
  | [] => none
  | p :: rest => if p.1 = k then some p.2 else dictGet rest k

/-- Python dict assignment `m[k] = v`: if `k` is present the entry is updated
in place (keeping its position); otherwise `(k, v)` is appended at the end. -/
def dictInsert (m : List (Str × Str)) (k v : Str) : List (Str × Str) :=
  if m.any (fun p => decide (p.1 = k)) then
    m.map (fun p => if p.1 = k then (k, v) else p)
  else m ++ [(k, v)]

/-- Python `m.update(new)`: insert every entry of `new` into `m`, in order. -/
def dictUpdate (m new : List (Str × Str)) : List (Str × Str) :=
  new.foldl (fun acc p => dictInsert acc p.1 p.2) m

/-- The value of the last entry of `l` whose key is `k` (later entries of a
file override earlier ones of the same file under `dictUpdate`). -/
def lastGet (l : List (Str × Str)) (k : Str) : Option Str :=
  dictGet l.reverse k

/-- Biased choice of options (first one if present, else the second). -/
def optOr (a b : Option Str) : Option Str :=
  match a with
  | some v => some v
  | none => b

/-- Python truthiness of an optional string: `None` and `""` are falsy. -/
def truthy (a : Option Str) : Bool :=
  match a with
  | some s => decide (s ≠ [])
  | none => false

/-- Python `A or B` on optional strings: `B` whenever `A` is falsy. -/
def pyOr (a b : Option Str) : Option Str :=
  if truthy a then a else b

/-- Embedding of `strip_quotes` (env_manager.py lines 25-32): strip one pair
of surrounding double or single quotes, if present. -/
def strip_quotes (s : Str) : Str :=
  if s ≠ [] ∧ s.head? = some '"' ∧ s.getLast? = some '"' then
    (s.drop 1).dropLast
  else if s ≠ [] ∧ s.head? = some '\'' ∧ s.getLast? = some '\'' then
    (s.drop 1).dropLast
  else s

/-- Embedding of `get_env_var` (lines 35-38): process-environment lookup with
an optional fallback default, quote-stripped.  The process environment is the
explicit lookup function `procEnv`. -/
def get_env_var (procEnv : Str → Option Str) (k : Str) (d : Option Str) : Option Str :=
  (optOr (procEnv k) d).map strip_quotes

/-- Quote characters removed by Python `str.strip(quoteChars)`. -/
def isQuoteChar (c : Char) : Bool := c = '\'' ∨ c = '"'

/-- Python `s.strip(quoteChars)`: remove all leading and trailing quote
characters. -/
def stripEdgeQuotes (s : Str) : Str :=
  ((s.dropWhile isQuoteChar).reverse.dropWhile isQuoteChar).reverse

/-- Python `s.split(sep, 1)` when `sep` occurs in `s`: the part before the
first occurrence of `sep` and the part after it; `none` when absent. -/
def splitOnFirst (sep : Str) : Str → Option (Str × Str)
  | [] => none
  | c :: rest =>
    if sep.isPrefixOf (c :: rest) then some ([], (c :: rest).drop sep.length)
    else
      match splitOnFirst sep rest with
      | some p => some (c :: p.1, p.2)
      | none => none

/-- Python `s.split(sep)` for a single-character separator: full split, with
empty pieces kept (so `"".split(",") = [""]`). -/
def splitAll (sep : Char) : Str → List Str
  | [] => [[]]
  | c :: rest =>
    let r := splitAll sep rest
    if c = sep then [] :: r
    else
      match r with
      | h :: t => (c :: h) :: t
      | [] => [[c]]

/-- Scan for the first `}` in `s`: returns the characters before it and the
characters after it (mirrors the regex fragment `[^}]+\}` boundary search). -/
def breakAtRBrace : Str → Option (Str × Str)
  | [] => none
  | c :: rest =>
    if c = '}' then some ([], rest)
    else
      match breakAtRBrace rest with
      | some p => some (c :: p.1, p.2)
      | none => none

/-- Embedding of `replace_var` (env_manager.py lines 98-121): given the text
between `${` and `}`, split off an optional `:-default`, look the name up in
the environment map, and return the replacement text together with the name
recorded as consumed (`none` when the token is left verbatim). -/
def replace_var (env : List (Str × Str)) (var_expr : Str) : Str × Option Str :=
  let parts := splitOnFirst [':', '-'] var_expr
  let var_name := match parts with | some p => p.1 | none => var_expr
  let default_value : Option Str := match parts with | some p => some p.2 | none => none
  match dictGet env var_name with
  | some v => (v, some var_name)
  | none =>
    match default_value with
    | some d => (d, some var_name)
    | none => ('$' :: '{' :: var_expr ++ ['}'], none)

/-- Fuelled scanner for `re.sub(r'\$\{([^}]+)\}', replace_var, s)`
(env_manager.py lines 129-130): replaces every non-overlapping match,
left to right, collecting the consumed variable names in order.  The fuel is
an upper bound on the string length, so that the recursion is structural and
kernel-computable; `substStr` instantiates it with the exact length. -/
def substAux (env : List (Str × Str)) : Nat → Str → Str × List Str
  | 0, _ => ([], [])
  | _ + 1, [] => ([], [])
  | fuel + 1, c :: rest =>
    if c = '$' ∧ rest.head? = some '{' then
      match breakAtRBrace rest.tail with
      | some (content, tail) =>
        if content = [] then
          let p := substAux env fuel rest
          (c :: p.1, p.2)
        else
          let r := replace_var env content
          let p := substAux env fuel tail
          (r.1 ++ p.1, r.2.elim p.2 (fun n => n :: p.2))
      | none =>
        let p := substAux env fuel rest
        (c :: p.1, p.2)
    else
      let p := substAux env fuel rest
      (c :: p.1, p.2)

/-- Regex substitution over one string scalar: the substituted string and the
list of consumed variable names. -/
def substStr (env : List (Str × Str)) (s : Str) : Str × List Str :=
  substAux env s.length s

/-- Configuration trees (`config.yaml` values): mappings, sequences and
scalars. Only string scalars are subject to substitution. -/
inductive ConfigValue where
  | str (s : Str)
  | num (n : Int)
  | bool (b : Bool)
  | null
  | arr (items : List ConfigValue)
  | obj (fields : List (Str × ConfigValue))
deriving Repr

mutual

/-- Embedding of `recursive_substitute` (env_manager.py lines 123-132):
walk the tree, substituting placeholders in every string scalar and
collecting the consumed variable names; other scalars pass through. -/
def recursive_substitute (env : List (Str × Str)) : ConfigValue → ConfigValue × List Str
  | .str s =>
    let p := substStr env s
    (.str p.1, p.2)
  | .num n => (.num n, [])
  | .bool b => (.bool b, [])
  | .null => (.null, [])
  | .arr items =>
    let p := substItems env items
    (.arr p.1, p.2)
  | .obj fields =>
    let p := substFields env fields
    (.obj p.1, p.2)

/-- Substitution mapped over the items of a sequence node. -/
def substItems (env : List (Str × Str)) : List ConfigValue → List ConfigValue × List Str
  | [] => ([], [])
  | v :: rest =>
    let pv := recursive_substitute env v
    let pr := substItems env rest
    (pv.1 :: pr.1, pv.2 ++ pr.2)

/-- Substitution mapped over the values of a mapping node (keys unchanged). -/
def substFields (env : List (Str × Str)) : List (Str × ConfigValue) → List (Str × ConfigValue) × List Str
  | [] => ([], [])
  | kv :: rest =>
    let pv := recursive_substitute env kv.2
    let pr := substFields env rest
    ((kv.1, pv.1) :: pr.1, pv.2 ++ pr.2)

end

/-- Embedding of `substitute_env_vars` (lines 82-136) with the environment
map (the result of `load_environment_files`) passed explicitly: returns the
substituted configuration and the set of substituted variable names. -/
def substitute_env_vars (env_vars : List (Str × Str)) (config : ConfigValue) : ConfigValue × List Str :=
  recursive_substitute env_vars config

/-- Flag marker for secret-binding directives. -/
def update_secrets_marker : Str := "--update-secrets=".data

/-- Flag marker for service-identity directives. -/
def service_account_marker : Str := "--service-account=".data

/-- Result of `process_secret_manager_config` (env_manager.py lines 139-194):
the list of literal (secretName, envVarName) pairs, the variable names
referenced through placeholders, the secret-backed environment-variable
names, and the passthrough flags. -/
structure SecretConfig where
  secret_secrets : List (Str × Str)
  referenced_vars : List Str
  secret_env_vars : List Str
  additional_processed_flags : List Str
deriving Repr, DecidableEq

/-- Python `s.startswith("${") and s.endswith("}")` (lines 164, 183). -/
def isVarPlaceholder (s : Str) : Bool :=
  ['$', '{'].isPrefixOf s && s.getLast? == some '}'

/-- Python `s[2:-1]`: the variable name inside a `${NAME}` placeholder. -/
def placeholderName (s : Str) : Str := (s.drop 2).dropLast

/-- Embedding of the per-pair body of `process_secret_string`
(lines 157-172): a pair lacking `=` or lacking `:` after the first `=` is
silently skipped; placeholder secret names are recorded as referenced;
literal secret names are appended as (secretName, envVarName) pairs, with
the parsed version discarded. -/
def processPair (st : SecretConfig) (pair : Str) : SecretConfig :=
  match splitOnFirst ['='] pair with
  | none => st
  | some (env_var, secret_name_version) =>
    if (':' : Char) ∈ pair then
      match splitOnFirst [':'] secret_name_version with
      | none => st
      | some (secret_name, _version) =>
        if isVarPlaceholder secret_name then
          { st with referenced_vars := st.referenced_vars ++ [placeholderName secret_name] }
        else
          { st with
              secret_secrets := st.secret_secrets ++ [(secret_name, env_var)],
              secret_env_vars := st.secret_env_vars ++ [env_var] }
    else st

/-- Embedding of the per-flag body of `process_secret_manager_config`
(lines 175-192). -/
def processFlag (st : SecretConfig) (flag : Str) : SecretConfig :=
  if update_secrets_marker.isPrefixOf flag then
    let secrets_part := stripEdgeQuotes (flag.drop update_secrets_marker.length)
    (splitAll ',' secrets_part).foldl processPair st
  else if service_account_marker.isPrefixOf flag then
    let service_account_value := flag.drop service_account_marker.length
    let st1 :=
      if isVarPlaceholder service_account_value then
        { st with
            referenced_vars := st.referenced_vars ++ [placeholderName service_account_value],
            secret_env_vars := st.secret_env_vars ++ ["SERVICE_ACCOUNT".data] }
      else st
    { st1 with additional_processed_flags := st1.additional_processed_flags ++ [flag] }
  else
    { st with additional_processed_flags := st.additional_processed_flags ++ [flag] }

/-- Embedding of `process_secret_manager_config` (lines 139-194): fold the
per-flag processing over the flag list, starting from empty collections. -/
def process_secret_manager_config (additional_flags : List Str) : SecretConfig :=
  additional_flags.foldl processFlag ⟨[], [], [], []⟩

/-- Embedding of `load_environment_files` (env_manager.py lines 41-79).
The file system is an external input: the two possible dotenv files are
passed as optional, already-parsed key/value lists (`none` for a missing
file).  The global `.env` file is loaded first; the agent-specific
`.env.secrets` file is consulted only when an agent name is given, and its
entries override the global ones via `dictUpdate`. -/
def load_environment_files (agent_name : Option Str)
    (global_env_file agent_secrets_file : Option (List (Str × Str))) : List (Str × Str) :=
  let e1 : List (Str × Str) :=
    match global_env_file with
    | some kvs => dictUpdate [] kvs
    | none => []
  match agent_name with
  | some _ =>
    match agent_secrets_file with
    | some kvs => dictUpdate e1 kvs
    | none => e1
  | none => e1

/-- Variable name `GOOGLE_CLOUD_PROJECT`. -/
def googleCloudProject : Str := "GOOGLE_CLOUD_PROJECT".data

/-- Variable name `GOOGLE_CLOUD_LOCATION`. -/
def googleCloudLocation : Str := "GOOGLE_CLOUD_LOCATION".data

/-- Variable name `GOOGLE_API_KEY`. -/
def googleApiKey : Str := "GOOGLE_API_KEY".data

/-- Variable name `GOOGLE_GENAI_USE_VERTEXAI`. -/
def googleGenaiUseVertexai : Str := "GOOGLE_GENAI_USE_VERTEXAI".data

/-- The fixed list `global_env_vars` of env_manager.py line 254. -/
def global_env_var_names : List Str :=
  [googleGenaiUseVertexai, googleApiKey, googleCloudProject, googleCloudLocation]

/-- Python `s.lower()` (ASCII case folding is all that these flags use). -/
def lowerStr (s : Str) : Str := s.map Char.toLower

/-- Embedding of the hosted-runtime flag resolution (env_manager.py line 223):
`(env_vars.get("GOOGLE_GENAI_USE_VERTEXAI") or
get_env_var("GOOGLE_GENAI_USE_VERTEXAI", "false")).lower() == "true"`. -/
def use_vertexai (env_vars : List (Str × Str)) (procEnv : Str → Option Str) : Bool :=
  decide (lowerStr ((pyOr (dictGet env_vars googleGenaiUseVertexai)
      (get_env_var procEnv googleGenaiUseVertexai (some "false".data))).getD []) = "true".data)

/-- One step of the global-variable loop (env_manager.py lines 260-266):
skip names that are excluded, auth-excluded, or the already-emitted
project/location names; otherwise emit `NAME=value` when a truthy value is
found (agent map first, process environment as fallback). -/
def global_env_step (env_vars : List (Str × Str)) (procEnv : Str → Option Str)
    (excluded_vars excluded_by_auth_mode : List Str)
    (acc : List (Str × Str)) (env_var : Str) : List (Str × Str) :=
  if env_var ∉ excluded_vars ∧ env_var ∉ excluded_by_auth_mode ∧
      env_var ∉ [googleCloudProject, googleCloudLocation] then
    let value := pyOr (dictGet env_vars env_var) (get_env_var procEnv env_var none)
    if truthy value then acc ++ [(env_var, value.getD [])] else acc
  else acc

/-- One step of the agent-secrets loop (env_manager.py lines 269-274):
emit every loaded entry whose key is not excluded, not in the global list, and
not auth-excluded, with its value quote-stripped. -/
def agent_env_step (excluded_vars excluded_by_auth_mode : List Str)
    (acc : List (Str × Str)) (kv : Str × Str) : List (Str × Str) :=
  if kv.1 ∉ excluded_vars ∧ kv.1 ∉ global_env_var_names ∧ kv.1 ∉ excluded_by_auth_mode then
    acc ++ [(kv.1, strip_quotes kv.2)]
  else acc

/-- The `cloud_run` configuration block, of which the reconciler reads only
`additional_flags` (env_manager.py line 219). -/
structure CloudRunConfig where
  additional_flags : List Str
deriving Repr, DecidableEq

/-- Final output of the reconciler: the ordered plain-env entries (each
emitted as `KEY=VALUE`), their comma-joined string, the auth-filtered secret
bindings, and the passthrough flags. -/
structure DeploymentEnvSpec where
  env_entries : List (Str × Str)
  env_string : Str
  filtered_secrets : List (Str × Str)
  additional_processed_flags : List Str
deriving Repr, DecidableEq

/-- Comma-join of the `KEY=VALUE` entries (env_manager.py line 276). -/
def joinComma (entries : List (Str × Str)) : Str :=
  List.intercalate [','] (entries.map (fun kv => kv.1 ++ '=' :: kv.2))

/-- Embedding of `setup_environment_variables` (env_manager.py lines
197-295).  The environment map loaded from the dotenv files is the explicit
parameter `env_vars`, and the process environment read by `get_env_var` is
the explicit lookup `procEnv`; the agent name is used by the source only for
logging and for selecting the files behind `env_vars`, so it does not appear.
The plain-env list is kept as structured (key, value) entries; the returned
`env_string` is their comma-join, exactly as built by the source's
f-strings. -/
def excludedByAuthMode (env_vars : List (Str × Str)) (procEnv : Str → Option Str) : List Str :=
  if use_vertexai env_vars procEnv then [googleApiKey] else []

/-- The union of exclusion sets computed at env_manager.py line 255. -/
def excludedVars (sc : SecretConfig) (substituted_vars secret_referenced_vars : List Str) :
    List Str :=
  sc.secret_env_vars ++ substituted_vars ++ secret_referenced_vars ++ sc.referenced_vars

/-- The two mandatory leading entries (env_manager.py lines 247-250). -/
def baseEntries (project_id region : Str) : List (Str × Str) :=
  [(googleCloudProject, strip_quotes project_id), (googleCloudLocation, strip_quotes region)]

/-- The full ordered plain-env entry list built by the reconciler. -/
def plainEnvEntries (project_id region : Str) (sc : SecretConfig)
    (substituted_vars secret_referenced_vars : List Str)
    (env_vars : List (Str × Str)) (procEnv : Str → Option Str) : List (Str × Str) :=
  let excl := excludedVars sc substituted_vars secret_referenced_vars
  let auth := excludedByAuthMode env_vars procEnv
  env_vars.foldl (agent_env_step excl auth)
    (global_env_var_names.foldl (global_env_step env_vars procEnv excl auth)
      (baseEntries project_id region))

def setup_environment_variables (project_id region : Str)
    (cloud_run_config : CloudRunConfig)
    (substituted_vars secret_referenced_vars : List Str)
    (env_vars : List (Str × Str)) (procEnv : Str → Option Str) : DeploymentEnvSpec :=
  let sc := process_secret_manager_config cloud_run_config.additional_flags
  let filtered_secrets := sc.secret_secrets.filter
    (fun p => decide (p.2 ∉ excludedByAuthMode env_vars procEnv))
  let base2 := plainEnvEntries project_id region sc
    substituted_vars secret_referenced_vars env_vars procEnv
  { env_entries := base2
    env_string := joinComma base2
    filtered_secrets := filtered_secrets
    additional_processed_flags := sc.additional_processed_flags }

/-- Well-formed strings for the idempotence analysis: a concatenation of
literal characters other than the dollar sign and complete placeholder
tokens whose content is nonempty, brace-free and dollar-free. -/
inductive WFStr : Str → Prop where
  | nil : WFStr []
  | lit {c : Char} {s : Str} : c ≠ '$' → WFStr s → WFStr (c :: s)
  | tok {content s : Str} : content ≠ [] → '}' ∉ content → '$' ∉ content →
      WFStr s → WFStr ('$' :: '{' :: (content ++ '}' :: s))

/-- Well-formed configuration trees: every string scalar is a `WFStr`. -/
inductive WFVal : ConfigValue → Prop where
  | str {s : Str} : WFStr s → WFVal (.str s)
  | num (n : Int) : WFVal (.num n)
  | bool (b : Bool) : WFVal (.bool b)
  | null : WFVal .null
  | arr {items : List ConfigValue} : (∀ v ∈ items, WFVal v) → WFVal (.arr items)
  | obj {fields : List (Str × ConfigValue)} : (∀ kv ∈ fields, WFVal kv.2) → WFVal (.obj fields)

theorem breakAtRBrace_length {s content tail : Str}
    (h : breakAtRBrace s = some (content, tail)) : tail.length < s.length := by
  induction s generalizing content with
  | nil => simp [breakAtRBrace] at h
  | cons c rest ih =>
    rw [breakAtRBrace] at h
    by_cases hc : c = '}'
    · rw [if_pos hc] at h
      have h2 : tail = rest := by
        have := Option.some.inj h
        exact (Prod.mk.injEq _ _ _ _ ▸ this).2.symm
      subst h2
      simp
    · rw [if_neg hc] at h
      cases hb : breakAtRBrace rest with
      | none => rw [hb] at h; exact absurd h (by simp)
      | some p =>
        rw [hb] at h
        obtain ⟨p1, p2⟩ := p
        have h2 : tail = p2 := by
          have := Option.some.inj h
          exact (Prod.mk.injEq _ _ _ _ ▸ this).2.symm
        subst h2
        exact Nat.lt_succ_of_lt (ih hb)

example : substStr [] "${MISSING}".data = ("${MISSING}".data, []) := by decide

example : substStr [] "${FOO:-bar}".data = ("bar".data, ["FOO".data]) := by decide

example : substStr [(("FOO".data : Str), ("baz".data : Str))] "${FOO:-bar}".data
    = ("baz".data, ["FOO".data]) := by decide

example : substStr [(("A".data : Str), ("p1".data : Str))] "x ${A} y".data
    = ("x p1 y".data, ["A".data]) := by decide

example :
    substitute_env_vars [(("A".data : Str), ("x${B}".data : Str)), (("B".data : Str), ("x".data : Str))]
        (.obj [("n".data, .str "${A}".data)])
    = (.obj [("n".data, .str "x${B}".data)], ["A".data]) := rfl

example : recursive_substitute [] ConfigValue.null = (ConfigValue.null, []) := rfl

example :
    process_secret_manager_config
      ["--update-secrets=API_KEY=my-secret:latest,DB_PASS=${DB_SECRET}:latest".data]
    = ⟨[("my-secret".data, "API_KEY".data)], ["DB_SECRET".data], ["API_KEY".data], []⟩ := by
  decide

example :
    process_secret_manager_config ["--service-account=${SA_EMAIL}".data, "--memory=1Gi".data]
    = ⟨[], ["SA_EMAIL".data], ["SERVICE_ACCOUNT".data],
       ["--service-account=${SA_EMAIL}".data, "--memory=1Gi".data]⟩ := by
  decide

example :
    load_environment_files (some "ag".data)
      (some [("REGION".data, "us-east1".data)]) (some [("REGION".data, "us-west2".data)])
    = [("REGION".data, "us-west2".data)] := by decide

example :
    (setup_environment_variables "p1".data "r1".data ⟨[]⟩ [] [] [] (fun _ => none)).env_entries
    = [(googleCloudProject, "p1".data), (googleCloudLocation, "r1".data)] := by decide

theorem substAux_nil (env : List (Str × Str)) (f : Nat) : substAux env f [] = ([], []) := by
  cases f <;> rfl

theorem substAux_step_plain (env : List (Str × Str)) (f : Nat) {c : Char} {rest : Str}
    (h : ¬(c = '$' ∧ rest.head? = some '{')) :
    substAux env (f + 1) (c :: rest) =
      (c :: (substAux env f rest).1, (substAux env f rest).2) := by
  simp only [substAux, if_neg h]

theorem breakAtRBrace_append {content : Str} (s : Str) (hnb : '}' ∉ content) :
    breakAtRBrace (content ++ '}' :: s) = some (content, s) := by
  induction content with
  | nil => simp [breakAtRBrace]
  | cons c rest ih =>
    have hc : c ≠ '}' := fun h => hnb (h ▸ List.mem_cons_self c rest)
    have hrest : '}' ∉ rest := fun h => hnb (List.mem_cons_of_mem c h)
    rw [List.cons_append, breakAtRBrace, if_neg hc, ih hrest]

theorem substAux_token (env : List (Str × Str)) (f : Nat) {content : Str} (s : Str)
    (hne : content ≠ []) (hnb : '}' ∉ content) :
    substAux env (f + 1) ('$' :: '{' :: (content ++ '}' :: s)) =
      ((replace_var env content).1 ++ (substAux env f s).1,
        ((replace_var env content).2).elim (substAux env f s).2
          (fun n => n :: (substAux env f s).2)) := by
  have hcond : ('$' : Char) = '$' ∧ (('{' :: (content ++ '}' :: s)) : Str).head? = some '{' :=
    ⟨rfl, rfl⟩
  simp only [substAux, if_pos hcond, List.tail_cons, breakAtRBrace_append s hnb]
  rw [if_neg hne]
  rw [if_pos (show True ∧ (('{' :: (content ++ '}' :: s)) : Str).head? = some '{' from
    And.intro trivial rfl)]

theorem substAux_congr (env : List (Str × Str)) :
    ∀ (f1 f2 : Nat) (s : Str), s.length ≤ f1 → s.length ≤ f2 →
      substAux env f1 s = substAux env f2 s := by
  intro f1
  induction f1 with
  | zero =>
    intro f2 s h1 _
    have hs : s = [] := List.length_eq_zero.mp (Nat.le_zero.mp h1)
    subst hs
    rw [substAux_nil, substAux_nil]
  | succ g ih =>
    intro f2 s h1 h2
    cases s with
    | nil => rw [substAux_nil, substAux_nil]
    | cons c rest =>
      cases f2 with
      | zero => simp at h2
      | succ g2 =>
        simp only [List.length_cons, Nat.succ_le_succ_iff] at h1 h2
        by_cases hcond : c = '$' ∧ rest.head? = some '{'
        · simp only [substAux, if_pos hcond]
          cases hb : breakAtRBrace rest.tail with
          | none => dsimp only; rw [ih g2 rest h1 h2]
          | some p =>
            obtain ⟨content, tail⟩ := p
            dsimp only
            by_cases hce : content = []
            · rw [if_pos hce, if_pos hce, ih g2 rest h1 h2]
            · rw [if_neg hce, if_neg hce]
              have htail : tail.length < rest.tail.length := breakAtRBrace_length hb
              have h3 : rest.tail.length = rest.length - 1 := List.length_tail rest
              rw [ih g2 tail (by omega) (by omega)]
        · rw [substAux_step_plain env g hcond, substAux_step_plain env g2 hcond,
            ih g2 rest h1 h2]

theorem substStr_nil (env : List (Str × Str)) : substStr env [] = ([], []) := rfl

theorem substStr_cons_plain (env : List (Str × Str)) {c : Char} {s : Str}
    (h : ¬(c = '$' ∧ s.head? = some '{')) :
    substStr env (c :: s) = (c :: (substStr env s).1, (substStr env s).2) := by
  unfold substStr
  rw [List.length_cons, substAux_step_plain env s.length h]

theorem substStr_cons_ne (env : List (Str × Str)) {c : Char} (s : Str) (hc : c ≠ '$') :
    substStr env (c :: s) = (c :: (substStr env s).1, (substStr env s).2) :=
  substStr_cons_plain env (fun h => hc h.1)

theorem substStr_token (env : List (Str × Str)) {content : Str} (s : Str)
    (hne : content ≠ []) (hnb : '}' ∉ content) :
    substStr env ('$' :: '{' :: (content ++ '}' :: s)) =
      ((replace_var env content).1 ++ (substStr env s).1,
        ((replace_var env content).2).elim (substStr env s).2
          (fun n => n :: (substStr env s).2)) := by
  unfold substStr
  have hlen : ('$' :: '{' :: (content ++ '}' :: s)).length =
      (content.length + s.length + 2) + 1 := by simp; omega
  rw [hlen, substAux_token env _ s hne hnb,
    substAux_congr env (content.length + s.length + 2) s.length s (by omega) (by omega)]

theorem isPrefixOf_append_drop {sep s : Str} (h : sep.isPrefixOf s = true) :
    s = sep ++ s.drop sep.length := by
  induction sep generalizing s with
  | nil => simp
  | cons c cs ih =>
    cases s with
    | nil => simp at h
    | cons b bs =>
      rw [List.isPrefixOf_cons₂, Bool.and_eq_true, beq_iff_eq] at h
      obtain ⟨h1, h2⟩ := h
      subst h1
      simpa using ih h2

theorem splitOnFirst_parts {sep : Str} : ∀ {s a b : Str}, splitOnFirst sep s = some (a, b) →
    s = a ++ sep ++ b := by
  intro s
  induction s with
  | nil => intro a b h; simp [splitOnFirst] at h
  | cons c rest ih =>
    intro a b h
    rw [splitOnFirst] at h
    by_cases hp : sep.isPrefixOf (c :: rest) = true
    · rw [if_pos hp] at h
      simp only [Option.some.injEq, Prod.mk.injEq] at h
      obtain ⟨rfl, rfl⟩ := h
      simpa using isPrefixOf_append_drop hp
    · rw [if_neg hp] at h
      cases hs : splitOnFirst sep rest with
      | none => rw [hs] at h; simp at h
      | some p =>
        rw [hs] at h
        obtain ⟨p1, p2⟩ := p
        simp only [Option.some.injEq, Prod.mk.injEq] at h
        obtain ⟨rfl, rfl⟩ := h
        simp [ih hs]

theorem splitOnFirst_single {c : Char} {a : Str} (b : Str) (ha : c ∉ a) :
    splitOnFirst [c] (a ++ c :: b) = some (a, b) := by
  induction a with
  | nil =>
    have hp : ([c] : Str).isPrefixOf (c :: b) = true := by simp [List.isPrefixOf]
    rw [List.nil_append, splitOnFirst, if_pos hp]
    simp
  | cons x a' ih =>
    have hxc : x ≠ c := fun h => ha (h ▸ List.mem_cons_self x a')
    have ha' : c ∉ a' := fun h => ha (List.mem_cons_of_mem x h)
    have hp : ([c] : Str).isPrefixOf (x :: (a' ++ c :: b)) = false := by
      simp [List.isPrefixOf, Ne.symm hxc]
    rw [List.cons_append, splitOnFirst, if_neg (by simp [hp]), ih ha']

theorem splitColonDash_append {name : Str} (d : Str)
    (h : splitOnFirst [':', '-'] name = none) :
    splitOnFirst [':', '-'] (name ++ ':' :: '-' :: d) = some (name, d) := by
  induction name with
  | nil =>
    have hp : ([':', '-'] : Str).isPrefixOf (':' :: '-' :: d) = true := by
      simp [List.isPrefixOf]
    rw [List.nil_append, splitOnFirst, if_pos hp]
    simp
  | cons x n' ih =>
    rw [splitOnFirst] at h
    by_cases hp : ([':', '-'] : Str).isPrefixOf (x :: n') = true
    · rw [if_pos hp] at h; simp at h
    · rw [if_neg hp] at h
      have hrec : splitOnFirst [':', '-'] n' = none := by
        cases hs : splitOnFirst [':', '-'] n' with
        | none => rfl
        | some p => rw [hs] at h; simp at h
      have hp2 : ([':', '-'] : Str).isPrefixOf (x :: (n' ++ ':' :: '-' :: d)) = false := by
        cases n' with
        | nil =>
          by_cases hx : x = ':'
          · subst hx; simp [List.isPrefixOf]
          · simp [List.isPrefixOf, Ne.symm hx]
        | cons y n'' =>
          by_cases hx : x = ':'
          · subst hx
            by_cases hy : y = '-'
            · subst hy
              exact absurd (by simp [List.isPrefixOf]) hp
            · simp [List.isPrefixOf, Ne.symm hy]
          · simp [List.isPrefixOf, Ne.symm hx]
      rw [List.cons_append, splitOnFirst, if_neg (by simp [hp2]), ih hrec]

theorem replace_var_eq_nosplit {env : List (Str × Str)} {content : Str}
    (hsp : splitOnFirst [':', '-'] content = none) :
    replace_var env content =
      match dictGet env content with
      | some v => (v, some content)
      | none => ('$' :: '{' :: content ++ ['}'], none) := by
  simp only [replace_var, hsp]

theorem replace_var_eq_split {env : List (Str × Str)} {content name d : Str}
    (hsp : splitOnFirst [':', '-'] content = some (name, d)) :
    replace_var env content =
      match dictGet env name with
      | some v => (v, some name)
      | none => (d, some name) := by
  simp only [replace_var, hsp]

theorem dictGet_some_mem {m : List (Str × Str)} {k v : Str} (h : dictGet m k = some v) :
    (k, v) ∈ m := by
  induction m with
  | nil => simp [dictGet] at h
  | cons p rest ih =>
    rw [dictGet] at h
    by_cases hk : p.1 = k
    · rw [if_pos hk] at h
      obtain ⟨a, b⟩ := p
      simp only at hk h
      subst hk
      rw [← Option.some.inj h]
      exact List.mem_cons_self _ _
    · rw [if_neg hk] at h
      exact List.mem_cons_of_mem p (ih h)

theorem substStr_wf_append (env : List (Str × Str)) {pre : Str} (t : Str) (h : WFStr pre) :
    substStr env (pre ++ t) =
      ((substStr env pre).1 ++ (substStr env t).1,
        (substStr env pre).2 ++ (substStr env t).2) := by
  induction h with
  | nil => simp [substStr_nil]
  | @lit c s hc _ ih =>
    rw [List.cons_append, substStr_cons_ne env (s ++ t) hc, ih,
      substStr_cons_ne env s hc]
    simp
  | @tok content s hne hnb _ _ ih =>
    have hshape : ('$' :: '{' :: (content ++ '}' :: s)) ++ t =
        '$' :: '{' :: (content ++ '}' :: (s ++ t)) := by simp
    rw [hshape, substStr_token env (s ++ t) hne hnb, ih, substStr_token env s hne hnb]
    cases hrv : (replace_var env content).2 with
    | none => simp
    | some n => simp

theorem nodollar_wf {s : Str} (h : '$' ∉ s) : WFStr s := by
  induction s with
  | nil => exact WFStr.nil
  | cons c rest ih =>
    exact WFStr.lit (fun hc => h (hc ▸ List.mem_cons_self c rest))
      (ih (fun hm => h (List.mem_cons_of_mem c hm)))

theorem substStr_nodollar_fixed (env : List (Str × Str)) {s : Str} (h : '$' ∉ s) :
    substStr env s = (s, []) := by
  induction s with
  | nil => exact substStr_nil env
  | cons c rest ih =>
    have hc : c ≠ '$' := fun hc => h (hc ▸ List.mem_cons_self c rest)
    rw [substStr_cons_ne env rest hc, ih (fun hm => h (List.mem_cons_of_mem c hm))]

theorem substStr_nodollar_append (env : List (Str × Str)) {v : Str} (t : Str)
    (h : '$' ∉ v) :
    substStr env (v ++ t) = (v ++ (substStr env t).1, (substStr env t).2) := by
  rw [substStr_wf_append env t (nodollar_wf h), substStr_nodollar_fixed env h]
  simp

theorem substStr_out_fixed (env : List (Str × Str)) (hvals : ∀ p ∈ env, '$' ∉ p.2)
    {s : Str} (h : WFStr s) :
    substStr env (substStr env s).1 = ((substStr env s).1, []) := by
  induction h with
  | nil => rw [substStr_nil]; exact substStr_nil env
  | @lit c s hc _ ih =>
    rw [substStr_cons_ne env s hc, substStr_cons_ne env _ hc, ih]
  | @tok content s hne hnb hnd _ ih =>
    rw [substStr_token env s hne hnb]
    rcases hsp : splitOnFirst [':', '-'] content with _ | ⟨name, d⟩
    · rw [replace_var_eq_nosplit hsp]
      rcases hdg : dictGet env content with _ | v
      · dsimp only
        have hshape : ('$' :: '{' :: content ++ ['}']) ++ (substStr env s).1
            = '$' :: '{' :: (content ++ '}' :: (substStr env s).1) := by simp
        rw [hshape, substStr_token env _ hne hnb, replace_var_eq_nosplit hsp, hdg]
        dsimp only
        rw [ih]
        simp
      · dsimp only
        have hv : '$' ∉ v := hvals (content, v) (dictGet_some_mem hdg)
        rw [substStr_nodollar_append env _ hv, ih]
    · rw [replace_var_eq_split hsp]
      have hd : '$' ∉ d := fun hmem => hnd (by rw [splitOnFirst_parts hsp]; simp [hmem])
      rcases hdg : dictGet env name with _ | v
      · dsimp only
        rw [substStr_nodollar_append env _ hd, ih]
      · dsimp only
        have hv : '$' ∉ v := hvals (name, v) (dictGet_some_mem hdg)
        rw [substStr_nodollar_append env _ hv, ih]

theorem substItems_fixed (env : List (Str × Str)) (l : List ConfigValue)
    (hP : ∀ v ∈ l, (recursive_substitute env (recursive_substitute env v).1).1 =
      (recursive_substitute env v).1) :
    (substItems env (substItems env l).1).1 = (substItems env l).1 := by
  induction l with
  | nil => rfl
  | cons v rest ih =>
    simp only [substItems]
    rw [hP v (List.mem_cons_self v rest),
      ih (fun w hw => hP w (List.mem_cons_of_mem v hw))]

theorem substFields_fixed (env : List (Str × Str)) (l : List (Str × ConfigValue))
    (hP : ∀ kv ∈ l, (recursive_substitute env (recursive_substitute env kv.2).1).1 =
      (recursive_substitute env kv.2).1) :
    (substFields env (substFields env l).1).1 = (substFields env l).1 := by
  induction l with
  | nil => rfl
  | cons kv rest ih =>
    simp only [substFields]
    rw [hP kv (List.mem_cons_self kv rest),
      ih (fun w hw => hP w (List.mem_cons_of_mem kv hw))]

/-- C6 (amended): placeholder substitution is a fixed point after one pass
for well-formed trees (every string scalar alternates dollar-free literal
text with complete `${...}` tokens whose contents are nonempty, brace-free
and dollar-free) provided additionally that no environment value contains a
dollar sign.  The original claim, which does not restrict environment
values, is refuted by `substitution_not_idempotent_cex`. -/
theorem substitution_idempotent_of_wf (env : List (Str × Str))
    (hvals : ∀ p ∈ env, '$' ∉ p.2) {v : ConfigValue} (h : WFVal v) :
    (recursive_substitute env (recursive_substitute env v).1).1 =
      (recursive_substitute env v).1 := by
  induction h with
  | @str s hs =>
    simp only [recursive_substitute]
    rw [substStr_out_fixed env hvals hs]
  | num n => rfl
  | bool b => rfl
  | null => rfl
  | @arr items _ ih =>
    simp only [recursive_substitute]
    rw [substItems_fixed env items ih]
  | @obj fields _ ih =>
    simp only [recursive_substitute]
    rw [substFields_fixed env fields ih]

/-- C6 witness: the amended idempotence theorem applied to the concrete
environment map A=x and the tree whose single scalar is the token for A. -/
theorem substitution_idempotent_of_wf_witness :
    (recursive_substitute [("A".data, "x".data)]
        (recursive_substitute [("A".data, "x".data)] (ConfigValue.str "${A}".data)).1).1 =
      (recursive_substitute [("A".data, "x".data)] (ConfigValue.str "${A}".data)).1 :=
  substitution_idempotent_of_wf [("A".data, "x".data)] (by decide)
    (WFVal.str (@WFStr.tok ['A'] []
      (by decide) (by decide) (by decide) WFStr.nil))

/-- C6 counterexample: with environment map A=${B}, B=x (no defaults
anywhere, hence no nested placeholders inside defaults) the tree `${A}`
substitutes to `${B}` after one pass and to `x` after two passes, so the
transform is not a fixed point after one application as the claim states. -/
theorem substitution_not_idempotent_cex :
    (recursive_substitute [("A".data, "${B}".data), ("B".data, "x".data)]
        (recursive_substitute [("A".data, "${B}".data), ("B".data, "x".data)]
          (ConfigValue.str "${A}".data)).1).1
      ≠ (recursive_substitute [("A".data, "${B}".data), ("B".data, "x".data)]
          (ConfigValue.str "${A}".data)).1 := by
  intro h
  have h2 : ConfigValue.str "x".data = ConfigValue.str "${B}".data := h
  have h3 : "x".data = "${B}".data := ConfigValue.str.inj h2
  exact absurd h3 (by decide)

/-- C4: a token `${NAME}` with no default whose name is absent from the
environment map is left character-for-character unchanged in the output and
contributes nothing to the consumed-variable set (the consumed set of
`pre ++ token ++ suf` is exactly that of `pre` plus that of `suf`). -/
theorem unresolved_token_preserved (env : List (Str × Str)) (pre name suf : Str)
    (hpre : WFStr pre) (hne : name ≠ []) (hnb : '}' ∉ name)
    (hnd : splitOnFirst [':', '-'] name = none) (hmiss : dictGet env name = none) :
    substStr env (pre ++ '$' :: '{' :: (name ++ '}' :: suf)) =
      ((substStr env pre).1 ++ '$' :: '{' :: name ++ '}' :: (substStr env suf).1,
        (substStr env pre).2 ++ (substStr env suf).2) := by
  rw [substStr_wf_append env _ hpre, substStr_token env suf hne hnb,
    replace_var_eq_nosplit hnd, hmiss]
  dsimp only
  simp

/-- C4 witness: `${MISSING}` with an empty environment map stays verbatim
and consumes nothing. -/
theorem unresolved_token_preserved_witness :
    substStr [] (([] : Str) ++ '$' :: '{' :: ("MISSING".data ++ '}' :: ([] : Str))) =
      ((substStr [] ([] : Str)).1 ++
          '$' :: '{' :: "MISSING".data ++ '}' :: (substStr [] ([] : Str)).1,
        (substStr [] ([] : Str)).2 ++ (substStr [] ([] : Str)).2) :=
  unresolved_token_preserved [] [] "MISSING".data [] WFStr.nil
    (by decide) (by decide) (by decide) (by decide)

/-- C5: a token `${NAME:-DEFAULT}` is replaced by the environment value of
NAME when present and by the literal DEFAULT otherwise, and NAME is added to
the consumed-variable set in both cases. -/
theorem default_token_substituted (env : List (Str × Str)) (pre name dflt suf : Str)
    (hpre : WFStr pre) (hnn : '}' ∉ name) (hnd : '}' ∉ dflt)
    (hsp : splitOnFirst [':', '-'] name = none) :
    substStr env (pre ++ '$' :: '{' :: ((name ++ ':' :: '-' :: dflt) ++ '}' :: suf)) =
      ((substStr env pre).1 ++ (dictGet env name).getD dflt ++ (substStr env suf).1,
        (substStr env pre).2 ++ name :: (substStr env suf).2) := by
  have hne : (name ++ ':' :: '-' :: dflt) ≠ [] := by simp
  have hnb : '}' ∉ (name ++ ':' :: '-' :: dflt) := by
    simp only [List.mem_append, List.mem_cons]
    push_neg
    exact ⟨hnn, by decide, by decide, hnd⟩
  rw [substStr_wf_append env _ hpre, substStr_token env suf hne hnb,
    replace_var_eq_split (splitColonDash_append dflt hsp)]
  cases hdg : dictGet env name with
  | none => dsimp only; simp
  | some v => dsimp only; simp

/-- C5 witness: `${FOO:-bar}` yields `bar` with FOO absent and `baz` with
FOO=baz present, consuming FOO in both cases. -/
theorem default_token_substituted_witness :
    (substStr [] (([] : Str) ++ '$' :: '{' :: (("FOO".data ++ ':' :: '-' :: "bar".data) ++ '}' :: ([] : Str))) =
      ((substStr [] ([] : Str)).1 ++ (dictGet [] "FOO".data).getD "bar".data ++ (substStr [] ([] : Str)).1,
        (substStr [] ([] : Str)).2 ++ "FOO".data :: (substStr [] ([] : Str)).2)) ∧
    (substStr [("FOO".data, "baz".data)]
        (([] : Str) ++ '$' :: '{' :: (("FOO".data ++ ':' :: '-' :: "bar".data) ++ '}' :: ([] : Str))) =
      ((substStr [("FOO".data, "baz".data)] ([] : Str)).1 ++
          (dictGet [("FOO".data, "baz".data)] "FOO".data).getD "bar".data ++
          (substStr [("FOO".data, "baz".data)] ([] : Str)).1,
        (substStr [("FOO".data, "baz".data)] ([] : Str)).2 ++
          "FOO".data :: (substStr [("FOO".data, "baz".data)] ([] : Str)).2)) :=
  ⟨default_token_substituted [] [] "FOO".data "bar".data [] WFStr.nil
      (by decide) (by decide) (by decide),
    default_token_substituted [("FOO".data, "baz".data)] [] "FOO".data "bar".data [] WFStr.nil
      (by decide) (by decide) (by decide)⟩

/-- C10: a token `${NAME:-}` with an empty default and NAME absent from the
environment map is replaced by the empty string (the output is just the
prefix output followed by the suffix output) and NAME is added to the
consumed set, unlike a token with no default at all. -/
theorem empty_default_token_erased (env : List (Str × Str)) (pre name suf : Str)
    (hpre : WFStr pre) (hnn : '}' ∉ name) (hsp : splitOnFirst [':', '-'] name = none)
    (hmiss : dictGet env name = none) :
    substStr env (pre ++ '$' :: '{' :: ((name ++ [':', '-']) ++ '}' :: suf)) =
      ((substStr env pre).1 ++ (substStr env suf).1,
        (substStr env pre).2 ++ name :: (substStr env suf).2) := by
  have hne : (name ++ [':', '-']) ≠ [] := by simp
  have hnb : '}' ∉ (name ++ [':', '-']) := by
    simp only [List.mem_append, List.mem_cons]
    push_neg
    refine ⟨hnn, by decide, by decide⟩
  have hsp2 : splitOnFirst [':', '-'] (name ++ [':', '-']) = some (name, []) :=
    splitColonDash_append [] hsp
  rw [substStr_wf_append env _ hpre, substStr_token env suf hne hnb,
    replace_var_eq_split hsp2, hmiss]
  dsimp only
  simp

/-- C10 witness: `${FOO:-}` with FOO absent substitutes to the empty string
and consumes FOO. -/
theorem empty_default_token_erased_witness :
    substStr [] (([] : Str) ++ '$' :: '{' :: (("FOO".data ++ [':', '-']) ++ '}' :: ([] : Str))) =
      ((substStr [] ([] : Str)).1 ++ (substStr [] ([] : Str)).1,
        (substStr [] ([] : Str)).2 ++ "FOO".data :: (substStr [] ([] : Str)).2) :=
  empty_default_token_erased [] [] "FOO".data [] WFStr.nil
    (by decide) (by decide) (by decide)

theorem usm_self_append (v : Str) :
    update_secrets_marker.isPrefixOf (update_secrets_marker ++ v) = true := by
  simp [update_secrets_marker, List.isPrefixOf]

theorem sam_self_append (v : Str) :
    service_account_marker.isPrefixOf (service_account_marker ++ v) = true := by
  simp [service_account_marker, List.isPrefixOf]

theorem usm_not_sam_append (v : Str) :
    update_secrets_marker.isPrefixOf (service_account_marker ++ v) = false := by
  simp [update_secrets_marker, service_account_marker, List.isPrefixOf]

theorem usm_drop (v : Str) :
    (update_secrets_marker ++ v).drop update_secrets_marker.length = v := rfl

theorem sam_drop (v : Str) :
    (service_account_marker ++ v).drop service_account_marker.length = v := rfl

theorem isVarPlaceholder_mk (name : Str) :
    isVarPlaceholder ('$' :: '{' :: (name ++ ['}'])) = true := by
  have h1 : ('$' :: '{' :: (name ++ ['}'])) = ('$' :: '{' :: name) ++ ['}'] := by simp
  rw [isVarPlaceholder, h1, Bool.and_eq_true, beq_iff_eq]
  constructor
  · simp [List.isPrefixOf]
  · show (('{' :: name) ++ ['}'] : Str).getLast? = some '}'
    rw [List.getLast?_concat]

theorem placeholderName_mk (name : Str) :
    placeholderName ('$' :: '{' :: (name ++ ['}'])) = name := by
  unfold placeholderName
  show (name ++ ['}']).dropLast = name
  simp

theorem splitAll_no_sep {sep : Char} {s : Str} (h : sep ∉ s) : splitAll sep s = [s] := by
  induction s with
  | nil => rfl
  | cons c rest ih =>
    have hc : c ≠ sep := fun hcc => h (hcc ▸ List.mem_cons_self c rest)
    have hrest : sep ∉ rest := fun hm => h (List.mem_cons_of_mem c hm)
    rw [splitAll]
    simp only [ih hrest, if_neg hc]

theorem foldl_preserve {α σ : Type} (f : σ → α → σ) (P : σ → Prop)
    (hstep : ∀ st a, P st → P (f st a)) :
    ∀ (l : List α) (st : σ), P st → P (l.foldl f st) := by
  intro l
  induction l with
  | nil => intro st h; exact h
  | cons a rest ih =>
    intro st h
    exact ih (f st a) (hstep st a h)

theorem processPair_preserves (st : SecretConfig) (pair : Str) :
    (∀ p, p ∈ st.secret_secrets → p ∈ (processPair st pair).secret_secrets) ∧
    (∀ n, n ∈ st.referenced_vars → n ∈ (processPair st pair).referenced_vars) ∧
    (∀ n, n ∈ st.secret_env_vars → n ∈ (processPair st pair).secret_env_vars) ∧
    (∀ g, g ∈ st.additional_processed_flags →
      g ∈ (processPair st pair).additional_processed_flags) := by
  unfold processPair
  repeat' split
  all_goals
    exact ⟨fun p h => by simp [List.mem_append, h],
      fun n h => by simp [List.mem_append, h],
      fun n h => by simp [List.mem_append, h],
      fun g h => by simp [List.mem_append, h]⟩

theorem processFlag_preserves (st : SecretConfig) (flag : Str) :
    (∀ p, p ∈ st.secret_secrets → p ∈ (processFlag st flag).secret_secrets) ∧
    (∀ n, n ∈ st.referenced_vars → n ∈ (processFlag st flag).referenced_vars) ∧
    (∀ n, n ∈ st.secret_env_vars → n ∈ (processFlag st flag).secret_env_vars) ∧
    (∀ g, g ∈ st.additional_processed_flags →
      g ∈ (processFlag st flag).additional_processed_flags) := by
  unfold processFlag
  split
  · refine ⟨fun p h => ?hs, fun n h => ?hr, fun n h => ?he, fun g h => ?hf⟩
    case hs =>
      exact foldl_preserve processPair (fun s => p ∈ s.secret_secrets)
        (fun s a hm => (processPair_preserves s a).1 p hm) _ st h
    case hr =>
      exact foldl_preserve processPair (fun s => n ∈ s.referenced_vars)
        (fun s a hm => (processPair_preserves s a).2.1 n hm) _ st h
    case he =>
      exact foldl_preserve processPair (fun s => n ∈ s.secret_env_vars)
        (fun s a hm => (processPair_preserves s a).2.2.1 n hm) _ st h
    case hf =>
      exact foldl_preserve processPair (fun s => g ∈ s.additional_processed_flags)
        (fun s a hm => (processPair_preserves s a).2.2.2 g hm) _ st h
  · split
    · dsimp only
      split
      all_goals
        exact ⟨fun p h => by simp [List.mem_append, h],
          fun n h => by simp [List.mem_append, h],
          fun n h => by simp [List.mem_append, h],
          fun g h => by simp [List.mem_append, h]⟩
    · exact ⟨fun p h => by simp [List.mem_append, h],
        fun n h => by simp [List.mem_append, h],
        fun n h => by simp [List.mem_append, h],
        fun g h => by simp [List.mem_append, h]⟩

/-- C8: a flag `--service-account=${NAME}` anywhere in the flag list makes
the classifier record NAME as referenced, force-add the fixed literal
SERVICE_ACCOUNT (not NAME) to the secret-backed names, and pass the flag
through unchanged. -/
theorem service_account_flag_classified (pre post : List Str) (name : Str) :
    name ∈ (process_secret_manager_config
        (pre ++ (service_account_marker ++ ('$' :: '{' :: (name ++ ['}']))) :: post)).referenced_vars ∧
    "SERVICE_ACCOUNT".data ∈ (process_secret_manager_config
        (pre ++ (service_account_marker ++ ('$' :: '{' :: (name ++ ['}']))) :: post)).secret_env_vars ∧
    (service_account_marker ++ ('$' :: '{' :: (name ++ ['}']))) ∈ (process_secret_manager_config
        (pre ++ (service_account_marker ++ ('$' :: '{' :: (name ++ ['}']))) :: post)).additional_processed_flags := by
  unfold process_secret_manager_config
  rw [List.foldl_append, List.foldl_cons]
  set flag : Str := service_account_marker ++ ('$' :: '{' :: (name ++ ['}'])) with hflag
  set mid : SecretConfig := List.foldl processFlag ⟨[], [], [], []⟩ pre with hmid
  have hstep : name ∈ (processFlag mid flag).referenced_vars ∧
      "SERVICE_ACCOUNT".data ∈ (processFlag mid flag).secret_env_vars ∧
      flag ∈ (processFlag mid flag).additional_processed_flags := by
    unfold processFlag
    rw [hflag]
    rw [if_neg (by rw [usm_not_sam_append]; exact Bool.false_ne_true),
      if_pos (sam_self_append ('$' :: '{' :: (name ++ ['}'])))]
    dsimp only
    rw [sam_drop, if_pos (isVarPlaceholder_mk name), placeholderName_mk]
    refine ⟨by simp, by simp, by simp⟩
  refine ⟨?_, ?_, ?_⟩
  · exact foldl_preserve processFlag (fun s => name ∈ s.referenced_vars)
      (fun s a hm => (processFlag_preserves s a).2.1 name hm) post _ hstep.1
  · exact foldl_preserve processFlag (fun s => "SERVICE_ACCOUNT".data ∈ s.secret_env_vars)
      (fun s a hm => (processFlag_preserves s a).2.2.1 _ hm) post _ hstep.2.1
  · exact foldl_preserve processFlag (fun s => flag ∈ s.additional_processed_flags)
      (fun s a hm => (processFlag_preserves s a).2.2.2 _ hm) post _ hstep.2.2

/-- C2 (amended): for a flag `--update-secrets=ENV=secret:version` with a
literal (non-placeholder) secret name, the classifier appends the PAIR
(secretName, envVarName) — the parsed version is discarded, not stored —
and adds envVarName to the secret-backed names.  A pair lacking a colon is
skipped entirely rather than defaulted to version "latest"
(see the counterexample `update_secrets_no_version_default_cex`). -/
theorem update_secrets_literal_classified (e s v : Str)
    (hse : ('=' : Char) ∉ e)
    (hnc : (',' : Char) ∉ e ++ '=' :: (s ++ ':' :: v))
    (hcs : (':' : Char) ∉ s)
    (hq : stripEdgeQuotes (e ++ '=' :: (s ++ ':' :: v)) = e ++ '=' :: (s ++ ':' :: v))
    (hnp : isVarPlaceholder s = false) :
    process_secret_manager_config [update_secrets_marker ++ (e ++ '=' :: (s ++ ':' :: v))]
      = ⟨[(s, e)], [], [e], []⟩ := by
  unfold process_secret_manager_config
  rw [List.foldl_cons, List.foldl_nil]
  unfold processFlag
  rw [if_pos (usm_self_append (e ++ '=' :: (s ++ ':' :: v)))]
  dsimp only
  rw [usm_drop, hq, splitAll_no_sep hnc, List.foldl_cons, List.foldl_nil]
  unfold processPair
  rw [splitOnFirst_single (s ++ ':' :: v) hse]
  have hcolon : (':' : Char) ∈ e ++ '=' :: (s ++ ':' :: v) := by simp
  dsimp only
  rw [if_pos hcolon, splitOnFirst_single v hcs]
  dsimp only
  rw [hnp]
  simp

/-- C2 counterexample: the claim says a missing version defaults to
"latest", but a pair lacking a colon is skipped outright: the flag
`--update-secrets=A=s` produces no literal binding at all (and bindings
carry no version component — they are (secretName, envVarName) pairs). -/
theorem update_secrets_no_version_default_cex :
    process_secret_manager_config ["--update-secrets=A=s".data]
      = ⟨[], [], [], []⟩ := by decide

/-- C2 witness: the amended classification applied to
`--update-secrets=API_KEY=my-secret:latest`, together with the evaluation
of the claim's two-pair example flag. -/
theorem update_secrets_literal_classified_witness :
    (process_secret_manager_config
        [update_secrets_marker ++ ("API_KEY".data ++ '=' :: ("my-secret".data ++ ':' :: "latest".data))]
      = ⟨[("my-secret".data, "API_KEY".data)], [], ["API_KEY".data], []⟩) ∧
    (process_secret_manager_config
        ["--update-secrets=API_KEY=my-secret:latest,DB_PASS=${DB_SECRET}:latest".data]
      = ⟨[("my-secret".data, "API_KEY".data)], ["DB_SECRET".data], ["API_KEY".data], []⟩) :=
  ⟨update_secrets_literal_classified "API_KEY".data "my-secret".data "latest".data
      (by decide) (by decide) (by decide) (by decide) (by decide),
    by decide⟩

theorem dictGet_append (a b : List (Str × Str)) (k : Str) :
    dictGet (a ++ b) k = optOr (dictGet a k) (dictGet b k) := by
  induction a with
  | nil => simp [dictGet, optOr]
  | cons p rest ih =>
    rw [List.cons_append, dictGet, dictGet]
    by_cases hp : p.1 = k
    · rw [if_pos hp, if_pos hp]
      rfl
    · rw [if_neg hp, if_neg hp, ih]

theorem dictGet_map_update_hit {m : List (Str × Str)} {k : Str} (v : Str)
    (h : m.any (fun p => decide (p.1 = k)) = true) :
    dictGet (m.map (fun p => if p.1 = k then (k, v) else p)) k = some v := by
  induction m with
  | nil => simp at h
  | cons p rest ih =>
    rw [List.map_cons, dictGet]
    by_cases hp : p.1 = k
    · rw [if_pos hp]
      rw [if_pos rfl]
    · rw [if_neg hp, if_neg hp]
      rw [List.any_cons] at h
      simp only [decide_eq_false hp, Bool.false_or] at h
      exact ih h

theorem dictGet_map_update_miss {m : List (Str × Str)} {k k' : Str} (v : Str)
    (hk : k' ≠ k) :
    dictGet (m.map (fun p => if p.1 = k then (k, v) else p)) k' = dictGet m k' := by
  induction m with
  | nil => rfl
  | cons p rest ih =>
    rw [List.map_cons, dictGet, dictGet]
    by_cases hp : p.1 = k
    · rw [if_pos hp]
      have h1 : ((k, v) : Str × Str).1 ≠ k' := fun hc => hk hc.symm
      have h2 : p.1 ≠ k' := fun hc => hk (hc.symm.trans hp)
      rw [if_neg h1, if_neg h2, ih]
    · rw [if_neg hp]
      by_cases hpk : p.1 = k'
      · rw [if_pos hpk, if_pos hpk]
      · rw [if_neg hpk, if_neg hpk, ih]

theorem dictGet_none_of_any_false {m : List (Str × Str)} {k : Str}
    (h : m.any (fun p => decide (p.1 = k)) = false) : dictGet m k = none := by
  induction m with
  | nil => rfl
  | cons p rest ih =>
    rw [List.any_cons] at h
    rw [Bool.or_eq_false_iff] at h
    rw [dictGet, if_neg (by simpa using h.1)]
    exact ih h.2

theorem dictGet_insert (m : List (Str × Str)) (k v k' : Str) :
    dictGet (dictInsert m k v) k' = if k' = k then some v else dictGet m k' := by
  unfold dictInsert
  by_cases hany : m.any (fun p => decide (p.1 = k)) = true
  · rw [if_pos hany]
    by_cases hk : k' = k
    · subst hk
      rw [if_pos rfl, dictGet_map_update_hit v hany]
    · rw [if_neg hk, dictGet_map_update_miss v hk]
  · rw [if_neg hany, dictGet_append]
    by_cases hk : k' = k
    · subst hk
      rw [if_pos rfl, dictGet_none_of_any_false (Bool.eq_false_iff.mpr hany)]
      simp [dictGet, optOr]
    · rw [if_neg hk]
      have h2 : dictGet [(k, v)] k' = none := by
        rw [dictGet, if_neg (fun hc : k = k' => hk hc.symm)]
        rfl
      rw [h2]
      cases dictGet m k' <;> rfl

theorem optOr_none_right (a : Option Str) : optOr a none = a := by
  cases a <;> rfl

theorem dictGet_update (m new : List (Str × Str)) (k : Str) :
    dictGet (dictUpdate m new) k = optOr (lastGet new k) (dictGet m k) := by
  induction new generalizing m with
  | nil => simp [dictUpdate, lastGet, dictGet, optOr]
  | cons p rest ih =>
    have hstep : dictUpdate m (p :: rest) = dictUpdate (dictInsert m p.1 p.2) rest := by
      simp [dictUpdate]
    rw [hstep, ih, dictGet_insert]
    have hlast : lastGet (p :: rest) k =
        optOr (lastGet rest k) (if p.1 = k then some p.2 else none) := by
      unfold lastGet
      rw [List.reverse_cons, dictGet_append]
      have h1 : dictGet [p] k = if p.1 = k then some p.2 else none := by
        by_cases hp : p.1 = k
        · show (if p.1 = k then some p.2 else dictGet [] k) = _
          rw [if_pos hp, if_pos hp]
        · show (if p.1 = k then some p.2 else dictGet [] k) = _
          rw [if_neg hp, if_neg hp]
          rfl
      rw [h1]
    rw [hlast]
    cases hl : lastGet rest k with
    | some w => rfl
    | none =>
      simp only [optOr]
      by_cases hk : k = p.1
      · rw [if_pos hk, if_pos (hk ▸ rfl : p.1 = k)]
      · rw [if_neg hk, if_neg (fun hc : p.1 = k => hk hc.symm)]

/-- C7: the environment source aggregator merges the global file and then,
when an agent name is given, the agent-specific secrets file; the later
file overrides the earlier on key collision (lookup in the result equals
lookup in the agent file, falling back to the global file); missing files
are silently skipped; the REGION example from the specification evaluates
as stated.  The function builds a fresh association list and, by
construction, never touches the process environment. -/
theorem load_environment_files_spec (agent : Str) (g a : List (Str × Str)) (k : Str) :
    (dictGet (load_environment_files (some agent) (some g) (some a)) k
      = optOr (lastGet a k) (lastGet g k)) ∧
    (load_environment_files (some agent) (some g) none = dictUpdate [] g) ∧
    (load_environment_files none (some g) (some a) = dictUpdate [] g) ∧
    (load_environment_files (some agent) none none = []) ∧
    (dictGet (load_environment_files (some "ag".data)
        (some [("REGION".data, "us-east1".data)]) (some [("REGION".data, "us-west2".data)]))
        "REGION".data
      = some "us-west2".data) := by
  refine ⟨?_, rfl, rfl, rfl, by decide⟩
  show dictGet (dictUpdate (dictUpdate [] g) a) k = optOr (lastGet a k) (lastGet g k)
  rw [dictGet_update, dictGet_update]
  have h0 : dictGet ([] : List (Str × Str)) k = none := rfl
  rw [h0, optOr_none_right]

theorem global_env_foldl_names (env_vars : List (Str × Str)) (procEnv : Str → Option Str)
    (excl auth : List Str) :
    ∀ (l : List Str) (acc : List (Str × Str)) (n : Str),
      n ∈ (l.foldl (global_env_step env_vars procEnv excl auth) acc).map Prod.fst →
      n ∈ acc.map Prod.fst ∨ (n ∉ excl ∧ n ∉ auth) := by
  intro l
  induction l with
  | nil => intro acc n h; exact Or.inl h
  | cons v rest ih =>
    intro acc n h
    rcases ih _ n h with h1 | h2
    · unfold global_env_step at h1
      by_cases hg : v ∉ excl ∧ v ∉ auth ∧ v ∉ [googleCloudProject, googleCloudLocation]
      · rw [if_pos hg] at h1
        dsimp only at h1
        by_cases ht : truthy (pyOr (dictGet env_vars v) (get_env_var procEnv v none)) = true
        · rw [if_pos ht] at h1
          rw [List.map_append, List.mem_append] at h1
          rcases h1 with h3 | h3
          · exact Or.inl h3
          · simp only [List.map_cons, List.map_nil, List.mem_singleton] at h3
            subst h3
            exact Or.inr ⟨hg.1, hg.2.1⟩
        · rw [if_neg ht] at h1
          exact Or.inl h1
      · rw [if_neg hg] at h1
        exact Or.inl h1
    · exact Or.inr h2

theorem agent_env_foldl_names (excl auth : List Str) :
    ∀ (l : List (Str × Str)) (acc : List (Str × Str)) (n : Str),
      n ∈ (l.foldl (agent_env_step excl auth) acc).map Prod.fst →
      n ∈ acc.map Prod.fst ∨ (n ∉ excl ∧ n ∉ auth) := by
  intro l
  induction l with
  | nil => intro acc n h; exact Or.inl h
  | cons kv rest ih =>
    intro acc n h
    rcases ih _ n h with h1 | h2
    · unfold agent_env_step at h1
      by_cases hg : kv.1 ∉ excl ∧ kv.1 ∉ global_env_var_names ∧ kv.1 ∉ auth
      · rw [if_pos hg] at h1
        rw [List.map_append, List.mem_append] at h1
        rcases h1 with h3 | h3
        · exact Or.inl h3
        · simp only [List.map_cons, List.map_nil, List.mem_singleton] at h3
          subst h3
          exact Or.inr ⟨hg.1, hg.2.2⟩
      · rw [if_neg hg] at h1
        exact Or.inl h1
    · exact Or.inr h2

theorem processPair_inv (st : SecretConfig) (pair : Str)
    (h : ∀ p ∈ st.secret_secrets, p.2 ∈ st.secret_env_vars) :
    ∀ p ∈ (processPair st pair).secret_secrets,
      p.2 ∈ (processPair st pair).secret_env_vars := by
  unfold processPair
  repeat' split
  all_goals
    intro p hp
    first
    | exact h p hp
    | (rcases List.mem_append.mp hp with h1 | h1
       · exact List.mem_append_left _ (h p h1)
       · simp only [List.mem_singleton] at h1
         subst h1
         exact List.mem_append_right _ (List.mem_singleton.mpr rfl))

theorem processFlag_inv (st : SecretConfig) (flag : Str)
    (h : ∀ p ∈ st.secret_secrets, p.2 ∈ st.secret_env_vars) :
    ∀ p ∈ (processFlag st flag).secret_secrets,
      p.2 ∈ (processFlag st flag).secret_env_vars := by
  unfold processFlag
  split
  · exact foldl_preserve processPair
      (fun s => ∀ p ∈ s.secret_secrets, p.2 ∈ s.secret_env_vars)
      (fun s a hm => processPair_inv s a hm) _ st h
  · split
    · dsimp only
      split
      · intro p hp
        exact List.mem_append_left _ (h p hp)
      · intro p hp
        exact h p hp
    · intro p hp
      exact h p hp

theorem secret_pair_env_tracked (flags : List Str) :
    ∀ p ∈ (process_secret_manager_config flags).secret_secrets,
      p.2 ∈ (process_secret_manager_config flags).secret_env_vars :=
  foldl_preserve processFlag
    (fun st => ∀ p ∈ st.secret_secrets, p.2 ∈ st.secret_env_vars)
    (fun st a hm => processFlag_inv st a hm) flags ⟨[], [], [], []⟩
    (fun p hp => absurd hp (List.not_mem_nil p))

/-- C1 (amended): any name occurring both among the plain-env entry keys and
among the envVarNames of the returned secret bindings is one of
GOOGLE_CLOUD_PROJECT / GOOGLE_CLOUD_LOCATION.  Those two names are always
emitted as the first two plain entries even when a secret-binding directive
targets them, so the full disjointness stated by the claim fails there
(`plain_env_secret_overlap_cex`); every other emitted plain name is kept out
of the secret-binding list. -/
theorem plain_env_secret_near_disjoint (project_id region : Str) (cfg : CloudRunConfig)
    (sv srv : List Str) (env_vars : List (Str × Str)) (procEnv : Str → Option Str) :
    List.inter
        ((setup_environment_variables project_id region cfg sv srv env_vars
          procEnv).env_entries.map Prod.fst)
        ((setup_environment_variables project_id region cfg sv srv env_vars
          procEnv).filtered_secrets.map Prod.snd)
      ⊆ [googleCloudProject, googleCloudLocation] := by
  intro n hn
  have hn2 : n ∈ (List.map Prod.fst (setup_environment_variables project_id region cfg sv srv
        env_vars procEnv).env_entries) ∩
      (List.map Prod.snd (setup_environment_variables project_id region cfg sv srv
        env_vars procEnv).filtered_secrets) := hn
  rw [List.mem_inter_iff] at hn2
  obtain ⟨hplain, hsec⟩ := hn2
  have hplain2 : n ∈ (plainEnvEntries project_id region
      (process_secret_manager_config cfg.additional_flags) sv srv env_vars
      procEnv).map Prod.fst := hplain
  have hsec2 : n ∈ ((process_secret_manager_config cfg.additional_flags).secret_secrets.filter
      (fun p => decide (p.2 ∉ excludedByAuthMode env_vars procEnv))).map Prod.snd := hsec
  rw [List.mem_map] at hsec2
  obtain ⟨p, hpmem, hp2⟩ := hsec2
  have hpsec : p ∈ (process_secret_manager_config cfg.additional_flags).secret_secrets :=
    List.mem_of_mem_filter hpmem
  have henv : n ∈ (process_secret_manager_config cfg.additional_flags).secret_env_vars :=
    hp2 ▸ secret_pair_env_tracked cfg.additional_flags p hpsec
  have hexcl : n ∈ excludedVars (process_secret_manager_config cfg.additional_flags) sv srv :=
    List.mem_append_left _ (List.mem_append_left _ (List.mem_append_left _ henv))
  unfold plainEnvEntries at hplain2
  dsimp only at hplain2
  rcases agent_env_foldl_names _ _ env_vars _ n hplain2 with h1 | h2
  · rcases global_env_foldl_names env_vars procEnv _ _ global_env_var_names _ n h1 with h3 | h4
    · unfold baseEntries at h3
      simpa using h3
    · exact absurd hexcl h4.1
  · exact absurd hexcl h2.1

/-- C1 counterexample: a secret-binding directive targeting
GOOGLE_CLOUD_PROJECT puts that name in the returned secret-binding list
while the reconciler still emits it as the first plain-env entry, so the
plain-env name set and the secret-binding name set are not disjoint. -/
theorem plain_env_secret_overlap_cex :
    googleCloudProject ∈ (setup_environment_variables "p".data "r".data
        ⟨["--update-secrets=GOOGLE_CLOUD_PROJECT=s:l".data]⟩ [] [] []
        (fun _ => none)).env_entries.map Prod.fst ∧
    googleCloudProject ∈ (setup_environment_variables "p".data "r".data
        ⟨["--update-secrets=GOOGLE_CLOUD_PROJECT=s:l".data]⟩ [] [] []
        (fun _ => none)).filtered_secrets.map Prod.snd := by decide

/-- C1 witness: the near-disjointness theorem applied at a concrete input
carrying both an ordinary secret binding and ordinary plain variables. -/
theorem plain_env_secret_near_disjoint_witness :
    List.inter
        ((setup_environment_variables "p".data "r".data
          ⟨["--update-secrets=API_KEY=my-secret:latest".data]⟩ [] []
          [("FOO".data, "1".data)] (fun _ => none)).env_entries.map Prod.fst)
        ((setup_environment_variables "p".data "r".data
          ⟨["--update-secrets=API_KEY=my-secret:latest".data]⟩ [] []
          [("FOO".data, "1".data)] (fun _ => none)).filtered_secrets.map Prod.snd)
      ⊆ [googleCloudProject, googleCloudLocation] :=
  plain_env_secret_near_disjoint "p".data "r".data
    ⟨["--update-secrets=API_KEY=my-secret:latest".data]⟩ [] []
    [("FOO".data, "1".data)] (fun _ => none)

/-- C3: when the hosted-runtime flag resolves to "true" (case-insensitive,
agent map first with process-environment fallback), GOOGLE_API_KEY is never
among the emitted plain-env entry keys — regardless of its presence in the
environment map or process environment — and every literal secret binding
targeting GOOGLE_API_KEY is removed from the returned binding list. -/
theorem vertexai_excludes_api_key (project_id region : Str) (cfg : CloudRunConfig)
    (sv srv : List Str) (env_vars : List (Str × Str)) (procEnv : Str → Option Str)
    (h : use_vertexai env_vars procEnv = true) :
    googleApiKey ∉ (setup_environment_variables project_id region cfg sv srv env_vars
        procEnv).env_entries.map Prod.fst ∧
    ∀ p ∈ (setup_environment_variables project_id region cfg sv srv env_vars
        procEnv).filtered_secrets, p.2 ≠ googleApiKey := by
  have hauth : excludedByAuthMode env_vars procEnv = [googleApiKey] := by
    unfold excludedByAuthMode
    rw [if_pos h]
  constructor
  · intro hmem
    have hmem2 : googleApiKey ∈ (plainEnvEntries project_id region
        (process_secret_manager_config cfg.additional_flags) sv srv env_vars
        procEnv).map Prod.fst := hmem
    unfold plainEnvEntries at hmem2
    dsimp only at hmem2
    rcases agent_env_foldl_names _ _ env_vars _ _ hmem2 with h1 | h2
    · rcases global_env_foldl_names env_vars procEnv _ _ global_env_var_names _ _ h1 with h3 | h4
      · unfold baseEntries at h3
        simp only [List.map_cons, List.map_nil] at h3
        exact absurd h3 (by decide)
      · rw [hauth] at h4
        exact h4.2 (List.mem_singleton.mpr rfl)
    · rw [hauth] at h2
      exact h2.2 (List.mem_singleton.mpr rfl)
  · intro p hp
    have hp2 : p ∈ (process_secret_manager_config cfg.additional_flags).secret_secrets.filter
        (fun q => decide (q.2 ∉ excludedByAuthMode env_vars procEnv)) := hp
    have hkeep := (List.mem_filter.mp hp2).2
    rw [hauth] at hkeep
    intro hc
    rw [decide_eq_true_iff] at hkeep
    exact hkeep (by rw [hc]; exact List.mem_singleton.mpr rfl)

/-- C3 witness: exclusion applied with the flag set to true in the
environment map, the API key present there, and a flag binding a secret to
GOOGLE_API_KEY. -/
theorem vertexai_excludes_api_key_witness :
    googleApiKey ∉ (setup_environment_variables "p".data "r".data
        ⟨["--update-secrets=GOOGLE_API_KEY=sek:latest".data]⟩ [] []
        [(googleGenaiUseVertexai, "true".data), (googleApiKey, "k".data)]
        (fun _ => none)).env_entries.map Prod.fst ∧
    ∀ p ∈ (setup_environment_variables "p".data "r".data
        ⟨["--update-secrets=GOOGLE_API_KEY=sek:latest".data]⟩ [] []
        [(googleGenaiUseVertexai, "true".data), (googleApiKey, "k".data)]
        (fun _ => none)).filtered_secrets, p.2 ≠ googleApiKey :=
  vertexai_excludes_api_key "p".data "r".data
    ⟨["--update-secrets=GOOGLE_API_KEY=sek:latest".data]⟩ [] []
    [(googleGenaiUseVertexai, "true".data), (googleApiKey, "k".data)]
    (fun _ => none) (by decide)

/-- C9 counterexample: the reconciler also reads the process environment
(`get_env_var` fallback), which the claim does not list among the inputs:
two calls with identical project ID, region, config, consumed set,
referenced set and environment map but different process environments give
different outputs (here, one deployment gains a GOOGLE_API_KEY entry). -/
theorem reconciler_procenv_dependence_cex :
    setup_environment_variables "p".data "r".data ⟨[]⟩ [] [] []
        (fun k => if k = googleApiKey then some "k".data else none)
      ≠ setup_environment_variables "p".data "r".data ⟨[]⟩ [] [] [] (fun _ => none) := by
  intro h
  have h2 := congrArg DeploymentEnvSpec.env_entries h
  exact absurd h2 (by decide)

/-- C9 (amended): the substitution engine is a pure function of the
(environment map, tree) pair, and the reconciler is a pure function of its
explicit inputs TOGETHER WITH the process-environment lookup used as
fallback: calls on equal inputs whose process-environment lookups agree on
every key produce identical outputs.  As literally stated — with the
process environment not among the inputs — the claim is refuted by
`reconciler_procenv_dependence_cex`. -/
theorem reconciler_deterministic (env1 env2 : List (Str × Str)) (t1 t2 : ConfigValue)
    (p1 p2 r1 r2 : Str) (cfg1 cfg2 : CloudRunConfig) (sv1 sv2 srv1 srv2 : List Str)
    (pe1 pe2 : Str → Option Str)
    (henv : env1 = env2) (ht : t1 = t2) (hp : p1 = p2) (hr : r1 = r2)
    (hcfg : cfg1 = cfg2) (hsv : sv1 = sv2) (hsrv : srv1 = srv2)
    (hpe : ∀ k, pe1 k = pe2 k) :
    substitute_env_vars env1 t1 = substitute_env_vars env2 t2 ∧
    setup_environment_variables p1 r1 cfg1 sv1 srv1 env1 pe1 =
      setup_environment_variables p2 r2 cfg2 sv2 srv2 env2 pe2 := by
  subst henv ht hp hr hcfg hsv hsrv
  have hfe : pe1 = pe2 := funext hpe
  subst hfe
  exact ⟨rfl, rfl⟩

/-- C9 witness: determinism applied at a concrete input. -/
theorem reconciler_deterministic_witness :
    substitute_env_vars [("A".data, "x".data)] (ConfigValue.str "${A}".data)
        = substitute_env_vars [("A".data, "x".data)] (ConfigValue.str "${A}".data) ∧
    setup_environment_variables "p".data "r".data ⟨["--memory=1Gi".data]⟩ [] []
        [("A".data, "x".data)] (fun _ => none)
      = setup_environment_variables "p".data "r".data ⟨["--memory=1Gi".data]⟩ [] []
        [("A".data, "x".data)] (fun _ => none) :=
  reconciler_deterministic [("A".data, "x".data)] [("A".data, "x".data)]
    (ConfigValue.str "${A}".data) (ConfigValue.str "${A}".data)
    "p".data "p".data "r".data "r".data ⟨["--memory=1Gi".data]⟩ ⟨["--memory=1Gi".data]⟩
    [] [] [] [] (fun _ => none) (fun _ => none)
    rfl rfl rfl rfl rfl rfl rfl (fun _ => rfl)
